import Mathlib

/-!
Verification of the TileDB storage-manager / array-metadata core.

The repository provides `array_metadata.h` and `storage_manager.h` (declarations
and documentation); the function bodies live outside the provided sources.  The
definitions below therefore embed the documented behavior: each one is modelled
from the specification text that describes the missing implementation, and the
theorems check the spec's quantified claims against these models.
-/

namespace TileDB

/- ********************************************************************* -/
/- C1:  ArrayMetadata binary codec (spec section 4.3, serialized format)  -/
/- ********************************************************************* -/

/-- Little-endian encoding of a fixed-width unsigned integer: `writeLE w v`
emits exactly `w` bytes, least significant first.  Modelled from the spec:
the serialized format of `ArrayMetadata::serialize` is little-endian with
fixed widths (u8/u32/u64 and the coordinate-type width); the implementation
is not among the provided sources. -/
def writeLE : Nat → Nat → List Nat
  | 0, _ => []
  | w + 1, v => v % 256 :: writeLE w (v / 256)

/-- Little-endian decoding of `w` bytes from the front of a byte list,
returning the value and the remaining bytes.  Modelled from the spec:
`ArrayMetadata::deserialize` reads the same fixed-width fields back. -/
def readLE : Nat → List Nat → Option (Nat × List Nat)
  | 0, bs => some (0, bs)
  | _ + 1, [] => none
  | w + 1, b :: bs =>
    match readLE w bs with
    | none => none
    | some (v, rest) => some (b + 256 * v, rest)

/-- Reads exactly `n` raw bytes from the front of a byte list. -/
def readBytes : Nat → List Nat → Option (List Nat × List Nat)
  | 0, bs => some ([], bs)
  | _ + 1, [] => none
  | n + 1, b :: bs =>
    match readBytes n bs with
    | none => none
    | some (xs, rest) => some (b :: xs, rest)

/-- Byte width of each coordinate datatype.  Modelled from the spec: the
coordinate `datatype` ranges over {i8,u8,i16,u16,i32,u32,i64,u64,f32,f64},
encoded here as codes 0..9 in that order; domain and tile-extent values are
serialized with the width of the coordinate datatype. -/
def datatypeSize (t : Nat) : Nat :=
  if t < 2 then 1
  else if t < 4 then 2
  else if t < 6 then 4
  else if t < 8 then 8
  else if t = 8 then 4
  else if t = 9 then 8
  else 0

/-- One dimension of the schema: name (raw bytes), coordinate datatype code,
inclusive domain bounds `lo, hi` (stored as fixed-width bit patterns), and an
optional tile extent (`none` means irregular tiles, i.e. a sparse array). -/
structure Dim where
  name : List Nat
  datatype : Nat
  lo : Nat
  hi : Nat
  tile_extent : Option Nat
deriving DecidableEq

/-- One attribute of the schema: name, datatype code, values per cell,
compressor code and compression level (i32 stored as a u32 bit pattern). -/
structure Attr where
  name : List Nat
  datatype : Nat
  cell_val_num : Nat
  compressor : Nat
  level : Nat
deriving DecidableEq

/-- The serializable ArrayMetadata state.  Modelled from the spec: the fields
appearing in the serialized format of section 4.3 (`array_type` 0 = dense,
1 = sparse; `cell_order`/`tile_order` 0 = row-major, 1 = col-major). -/
structure ArrayMetadataS where
  array_type : Nat
  dims : List Dim
  cell_order : Nat
  tile_order : Nat
  capacity : Nat
  coords_compression : Nat
  coords_compression_level : Nat
  attrs : List Attr
deriving DecidableEq

/-- Serialization of one dimension block:
`u32 name_len, bytes name, u8 datatype, lo, hi, (tile_extent | 0xFF tag)`.
Modelled from the spec's serialized-format grammar; a present extent is
written as a value of the coordinate width, an absent one as the single
tag byte 0xFF (per section 3 extents are present exactly on dense arrays). -/
def serDim (d : Dim) : List Nat :=
  writeLE 4 d.name.length ++ d.name ++ [d.datatype] ++
    writeLE (datatypeSize d.datatype) d.lo ++
    writeLE (datatypeSize d.datatype) d.hi ++
    (match d.tile_extent with
     | none => [255]
     | some e => writeLE (datatypeSize d.datatype) e)

/-- Serialization of one attribute block:
`u32 name_len, bytes name, u8 datatype, u32 cell_val_num, u8 compressor,
i32 level`.  Modelled from the spec's serialized-format grammar. -/
def serAttr (a : Attr) : List Nat :=
  writeLE 4 a.name.length ++ a.name ++ [a.datatype] ++
    writeLE 4 a.cell_val_num ++ [a.compressor] ++ writeLE 4 a.level

/-- `ArrayMetadata::serialize` into a byte list.  Modelled from the spec:
`u8 array_type | u32 dim_num | dim blocks | u8 cell_order | u8 tile_order |
u64 capacity | u8 coords_compression | i32 coords_compression_level |
u32 attribute_num | attribute blocks`, little-endian throughout. -/
def serialize (m : ArrayMetadataS) : List Nat :=
  m.array_type :: (writeLE 4 m.dims.length ++
    (m.dims.map serDim).flatten ++
    m.cell_order :: m.tile_order :: (writeLE 8 m.capacity ++
    m.coords_compression :: (writeLE 4 m.coords_compression_level ++
    writeLE 4 m.attrs.length ++ (m.attrs.map serAttr).flatten)))

/-- Reads one dimension block.  The `dense` flag (known from the already-read
`array_type` byte) decides whether a tile-extent value or the 0xFF none-tag
is expected.  Modelled from the spec's serialized-format grammar. -/
def readDim (dense : Bool) (bs : List Nat) : Option (Dim × List Nat) :=
  match readLE 4 bs with
  | none => none
  | some (nlen, bs1) =>
    match readBytes nlen bs1 with
    | none => none
    | some (name, bs2) =>
      match bs2 with
      | [] => none
      | dt :: bs3 =>
        match readLE (datatypeSize dt) bs3 with
        | none => none
        | some (lo, bs4) =>
          match readLE (datatypeSize dt) bs4 with
          | none => none
          | some (hi, bs5) =>
            if dense then
              match readLE (datatypeSize dt) bs5 with
              | none => none
              | some (e, bs6) => some (⟨name, dt, lo, hi, some e⟩, bs6)
            else
              match bs5 with
              | 255 :: bs6 => some (⟨name, dt, lo, hi, none⟩, bs6)
              | _ => none

/-- Reads `n` dimension blocks. -/
def readDims (dense : Bool) : Nat → List Nat → Option (List Dim × List Nat)
  | 0, bs => some ([], bs)
  | n + 1, bs =>
    match readDim dense bs with
    | none => none
    | some (d, bs1) =>
      match readDims dense n bs1 with
      | none => none
      | some (ds, bs2) => some (d :: ds, bs2)

/-- Reads one attribute block. -/
def readAttr (bs : List Nat) : Option (Attr × List Nat) :=
  match readLE 4 bs with
  | none => none
  | some (nlen, bs1) =>
    match readBytes nlen bs1 with
    | none => none
    | some (name, bs2) =>
      match bs2 with
      | [] => none
      | dt :: bs3 =>
        match readLE 4 bs3 with
        | none => none
        | some (cvn, bs4) =>
          match bs4 with
          | [] => none
          | comp :: bs5 =>
            match readLE 4 bs5 with
            | none => none
            | some (lvl, bs6) => some (⟨name, dt, cvn, comp, lvl⟩, bs6)

/-- Reads `n` attribute blocks. -/
def readAttrs : Nat → List Nat → Option (List Attr × List Nat)
  | 0, bs => some ([], bs)
  | n + 1, bs =>
    match readAttr bs with
    | none => none
    | some (a, bs1) =>
      match readAttrs n bs1 with
      | none => none
      | some (as2, bs2) => some (a :: as2, bs2)

/-- `ArrayMetadata::deserialize` from a byte list.  Modelled from the spec:
reads the section 4.3 format back field by field, failing (like the
`DeserializeError` of section 7) when the buffer is exhausted early. -/
def deserialize (bs : List Nat) : Option ArrayMetadataS :=
  match bs with
  | [] => none
  | at0 :: bs1 =>
    match readLE 4 bs1 with
    | none => none
    | some (dn, bs2) =>
      match readDims (at0 == 0) dn bs2 with
      | none => none
      | some (dims, bs3) =>
        match bs3 with
        | co :: tor :: bs4 =>
          match readLE 8 bs4 with
          | none => none
          | some (cap, bs5) =>
            match bs5 with
            | [] => none
            | cc :: bs6 =>
              match readLE 4 bs6 with
              | none => none
              | some (ccl, bs7) =>
                match readLE 4 bs7 with
                | none => none
                | some (an, bs8) =>
                  match readAttrs an bs8 with
                  | none => none
                  | some (attrs, _) =>
                    some ⟨at0, dims, co, tor, cap, cc, ccl, attrs⟩
        | _ => none

/-- Well-formedness of a name for the codec: its u32 length fits and each
byte is a byte. -/
def wfNameB (name : List Nat) : Bool :=
  decide (name.length < 256 ^ 4) && name.all fun b => decide (b < 256)

/-- Well-formedness of a dimension for a given array type: bounded fields,
a known datatype code, and (per section 3) a tile extent exactly on dense
arrays. -/
def wfDimB (dense : Bool) (d : Dim) : Bool :=
  wfNameB d.name && decide (d.datatype < 10) &&
    decide (d.lo < 256 ^ datatypeSize d.datatype) &&
    decide (d.hi < 256 ^ datatypeSize d.datatype) &&
    (match d.tile_extent with
     | some e => dense && decide (e < 256 ^ datatypeSize d.datatype)
     | none => !dense)

/-- Well-formedness of an attribute for the codec: all fields fit their
serialized widths. -/
def wfAttrB (a : Attr) : Bool :=
  wfNameB a.name && decide (a.datatype < 256) &&
    decide (a.cell_val_num < 256 ^ 4) && decide (a.compressor < 256) &&
    decide (a.level < 256 ^ 4)

/-- Well-formedness of a whole metadata object, as established by `init`
(section 3: `dim_num ≥ 1`, `attribute_num ≥ 1`, array type and orders are
valid enum codes, and every field fits its serialized width). -/
def wfMetaB (m : ArrayMetadataS) : Bool :=
  decide (m.array_type < 2) &&
    decide (0 < m.dims.length) && decide (m.dims.length < 256 ^ 4) &&
    m.dims.all (wfDimB (m.array_type == 0)) &&
    decide (m.cell_order < 2) && decide (m.tile_order < 2) &&
    decide (m.capacity < 256 ^ 8) && decide (m.coords_compression < 256) &&
    decide (m.coords_compression_level < 256 ^ 4) &&
    decide (0 < m.attrs.length) && decide (m.attrs.length < 256 ^ 4) &&
    m.attrs.all wfAttrB

theorem readLE_writeLE (w : Nat) (v : Nat) (rest : List Nat)
    (h : v < 256 ^ w) : readLE w (writeLE w v ++ rest) = some (v, rest) := by
  induction w generalizing v with
  | zero =>
    have hv : v = 0 := by simpa using h
    subst hv
    simp [writeLE, readLE]
  | succ w ih =>
    have hv : v / 256 < 256 ^ w := by
      rw [Nat.div_lt_iff_lt_mul (by norm_num)]
      calc v < 256 ^ (w + 1) := h
        _ = 256 ^ w * 256 := by ring
    have hsplit : v % 256 + 256 * (v / 256) = v := by omega
    simp only [writeLE, List.cons_append, readLE, List.append_eq]
    rw [ih (v / 256) hv]
    simp [hsplit]

theorem readBytes_append (xs rest : List Nat) :
    readBytes xs.length (xs ++ rest) = some (xs, rest) := by
  induction xs with
  | nil => simp [readBytes]
  | cons b bs ih => simp [readBytes, ih]

theorem readDim_serDim (dense : Bool) (d : Dim) (rest : List Nat)
    (h : wfDimB dense d = true) :
    readDim dense (serDim d ++ rest) = some (d, rest) := by
  obtain ⟨nm, dt, lo, hi, ext⟩ := d
  simp only [wfDimB, wfNameB, Bool.and_eq_true, decide_eq_true_eq] at h
  obtain ⟨⟨⟨⟨⟨hlen, -⟩, -⟩, hlo⟩, hhi⟩, hext⟩ := h
  cases ext with
  | none =>
    have hdense : dense = false := by
      cases dense
      · rfl
      · simp at hext
    subst hdense
    have hassoc : serDim ⟨nm, dt, lo, hi, none⟩ ++ rest =
        writeLE 4 nm.length ++ (nm ++ (dt ::
          (writeLE (datatypeSize dt) lo ++
          (writeLE (datatypeSize dt) hi ++ (255 :: rest))))) := by
      simp [serDim, List.append_assoc]
    simp only [readDim, hassoc, readLE_writeLE 4 nm.length _ hlen,
      readBytes_append, readLE_writeLE _ lo _ hlo, readLE_writeLE _ hi _ hhi,
      Bool.false_eq_true, if_false]
  | some e =>
    rw [Bool.and_eq_true] at hext
    obtain ⟨hdense, he⟩ := hext
    rw [decide_eq_true_eq] at he
    subst hdense
    have hassoc : serDim ⟨nm, dt, lo, hi, some e⟩ ++ rest =
        writeLE 4 nm.length ++ (nm ++ (dt ::
          (writeLE (datatypeSize dt) lo ++
          (writeLE (datatypeSize dt) hi ++
          (writeLE (datatypeSize dt) e ++ rest))))) := by
      simp [serDim, List.append_assoc]
    simp only [readDim, hassoc, readLE_writeLE 4 nm.length _ hlen,
      readBytes_append, readLE_writeLE _ lo _ hlo, readLE_writeLE _ hi _ hhi,
      readLE_writeLE _ e _ he, if_true]

theorem readAttr_serAttr (a : Attr) (rest : List Nat)
    (h : wfAttrB a = true) : readAttr (serAttr a ++ rest) = some (a, rest) := by
  obtain ⟨nm, dt, cvn, comp, lvl⟩ := a
  simp only [wfAttrB, wfNameB, Bool.and_eq_true, decide_eq_true_eq] at h
  obtain ⟨⟨⟨⟨⟨hlen, -⟩, -⟩, hcvn⟩, -⟩, hlvl⟩ := h
  have hassoc : serAttr ⟨nm, dt, cvn, comp, lvl⟩ ++ rest =
      writeLE 4 nm.length ++ (nm ++ (dt ::
        (writeLE 4 cvn ++ (comp :: (writeLE 4 lvl ++ rest))))) := by
    simp [serAttr, List.append_assoc]
  simp only [readAttr, hassoc, readLE_writeLE 4 nm.length _ hlen,
    readBytes_append, readLE_writeLE 4 cvn _ hcvn, readLE_writeLE 4 lvl _ hlvl]

theorem readDims_serDims (dense : Bool) (ds : List Dim) (rest : List Nat)
    (h : ds.all (wfDimB dense) = true) :
    readDims dense ds.length ((ds.map serDim).flatten ++ rest) =
      some (ds, rest) := by
  induction ds with
  | nil => simp [readDims]
  | cons d ds ih =>
    rw [List.all_cons, Bool.and_eq_true] at h
    obtain ⟨hd, hds⟩ := h
    have : ((d :: ds).map serDim).flatten ++ rest =
        serDim d ++ ((ds.map serDim).flatten ++ rest) := by
      simp [List.append_assoc]
    rw [List.length_cons]
    simp only [readDims, this, readDim_serDim dense d _ hd, ih hds]

theorem readAttrs_serAttrs (attrs : List Attr) (rest : List Nat)
    (h : attrs.all wfAttrB = true) :
    readAttrs attrs.length ((attrs.map serAttr).flatten ++ rest) =
      some (attrs, rest) := by
  induction attrs with
  | nil => simp [readAttrs]
  | cons a attrs ih =>
    rw [List.all_cons, Bool.and_eq_true] at h
    obtain ⟨ha, has⟩ := h
    have : ((a :: attrs).map serAttr).flatten ++ rest =
        serAttr a ++ ((attrs.map serAttr).flatten ++ rest) := by
      simp [List.append_assoc]
    rw [List.length_cons]
    simp only [readAttrs, this, readAttr_serAttr a _ ha, ih has]

/-- C1: for every well-formed ArrayMetadata `m` (as frozen by `init`),
serializing `m` into a buffer and deserializing that buffer yields an object
bit-exactly equal to `m`: the section-4.3 codec round-trips exactly. -/
theorem c1_metadata_codec_roundtrip (m : ArrayMetadataS)
    (h : wfMetaB m = true) : deserialize (serialize m) = some m := by
  obtain ⟨at0, dims, co, tor, cap, cc, ccl, attrs⟩ := m
  simp only [wfMetaB, Bool.and_eq_true, decide_eq_true_eq] at h
  obtain ⟨⟨⟨⟨⟨⟨⟨⟨⟨⟨⟨-, hdn0⟩, hdn⟩, hdims⟩, -⟩, -⟩, hcap⟩, -⟩, hccl⟩,
    -⟩, han⟩, hattrs⟩ := h
  have hser : serialize ⟨at0, dims, co, tor, cap, cc, ccl, attrs⟩ =
      at0 :: (writeLE 4 dims.length ++ ((dims.map serDim).flatten ++
        (co :: tor :: (writeLE 8 cap ++ (cc ::
        (writeLE 4 ccl ++ (writeLE 4 attrs.length ++
        ((attrs.map serAttr).flatten ++ [])))))))) := by
    simp [serialize, List.append_assoc]
  rw [hser]
  simp only [deserialize, readLE_writeLE 4 dims.length _ hdn,
    readDims_serDims (at0 == 0) dims _ hdims,
    readLE_writeLE 8 cap _ hcap, readLE_writeLE 4 ccl _ hccl,
    readLE_writeLE 4 attrs.length _ han,
    readAttrs_serAttrs attrs _ hattrs]

/-- Witness metadata for the codec round-trip: a dense 1-d i64 array with
domain [0,3], tile extent 2 and a single i32 attribute. -/
def metaW : ArrayMetadataS :=
  ⟨0, [⟨[65], 6, 0, 3, some 2⟩], 0, 0, 10000, 0, 5, [⟨[118], 4, 1, 0, 0⟩]⟩

theorem c1_metadata_codec_roundtrip_witness :
    wfMetaB metaW = true ∧ deserialize (serialize metaW) = some metaW :=
  ⟨by decide, c1_metadata_codec_roundtrip metaW (by decide)⟩

/- ********************************************************************* -/
/- Coordinate geometry (spec section 4.3, coordinate algorithms)          -/
/- ********************************************************************* -/

/-- Cell and tile layouts of the schema. -/
inductive Layout where
  | row_major
  | col_major
deriving DecidableEq

/-- The geometry an ArrayMetadata carries after `init`: the per-dimension
inclusive `[lo, hi]` domain, the optional tile extents (`none` exactly when
the array has irregular tiles, i.e. is sparse), and the two orders.
Modelled from the spec: sections 3 and 4.3; the coordinate algorithms of
`array_metadata.h` are declared there but implemented elsewhere. -/
structure Geom where
  domain : List (Int × Int)
  tile_extents : Option (List Int)
  cell_order : Layout
  tile_order : Layout

/-- Bound check of a coordinate tuple against a domain, dimension by
dimension (false on dimension mismatch). -/
def inDomainB : List (Int × Int) → List Int → Bool
  | [], [] => true
  | (l, h) :: ds, c :: cs => decide (l ≤ c) && decide (c ≤ h) && inDomainB ds cs
  | _, _ => false

/-- Linear position of in-tile coordinates with the head dimension varying
fastest (the column-major regime): `linCol [e0,..] [t0,..] = t0 + e0 * ...`. -/
def linCol : List Int → List Int → Int
  | e :: es, t :: ts => t + e * linCol es ts
  | _, _ => 0

/-- In-tile coordinates of a cell: per dimension `(c - lo) mod extent`
(Euclidean mod; on in-domain cells `c - lo ≥ 0`, where this agrees with the
C++ `%`). -/
def inTileCoords : List (Int × Int) → List Int → List Int → List Int
  | (l, _) :: ds, e :: es, c :: cs => (c - l) % e :: inTileCoords ds es cs
  | _, _, _ => []

/-- `ArrayMetadata::get_cell_pos`: position of global coordinates within
their tile, along the array cell order; dense only, and a coordinate outside
the domain is the `DomainError` failure of section 7 (here `none`).
Modelled from the spec, section 4.3. -/
def get_cell_pos (g : Geom) (c : List Int) : Option Int :=
  match g.tile_extents with
  | none => none
  | some es =>
    if inDomainB g.domain c then
      some (match g.cell_order with
        | Layout.row_major =>
          linCol es.reverse (inTileCoords g.domain es c).reverse
        | Layout.col_major => linCol es (inTileCoords g.domain es c))
    else none

/-- `ArrayMetadata::cell_num_per_tile`: product of the tile extents
(dense only; 0 on a sparse array, where it is meaningless). -/
def cell_num_per_tile (g : Geom) : Int :=
  match g.tile_extents with
  | none => 0
  | some es => es.prod

/-- Per-dimension tile counts of the tile domain:
`(hi - lo + 1) / extent`. -/
def tileCounts : List (Int × Int) → List Int → List Int
  | (l, h) :: ds, e :: es => (h - l + 1) / e :: tileCounts ds es
  | _, _ => []

/-- Tile coordinates of a cell: per dimension `(c - lo) / extent`
(Euclidean; equal to the C++ `/` on in-domain cells). -/
def tileCoords : List (Int × Int) → List Int → List Int → List Int
  | (l, _) :: ds, e :: es, c :: cs => (c - l) / e :: tileCoords ds es cs
  | _, _, _ => []

/-- Row-major strides over a list of per-dimension counts: the stride of a
dimension is the product of all later counts (the `tile_offsets_row_` of the
header). -/
def rowStrides : List Int → List Int
  | [] => []
  | _ :: ns => ns.prod :: rowStrides ns

/-- Dot product of equal-length integer lists. -/
def dotInt : List Int → List Int → Int
  | x :: xs, y :: ys => x * y + dotInt xs ys
  | _, _ => 0

/-- `ArrayMetadata::tile_id`: `Σ tile_coords[d] * tile_offsets[d]` with the
strides precomputed under the array tile order.  Modelled from the spec,
section 4.3; `none` on a sparse array. -/
def tile_id (g : Geom) (c : List Int) : Option Int :=
  match g.tile_extents with
  | none => none
  | some es =>
    some (match g.tile_order with
      | Layout.row_major =>
        dotInt (tileCoords g.domain es c) (rowStrides (tileCounts g.domain es))
      | Layout.col_major =>
        dotInt (tileCoords g.domain es c).reverse
          (rowStrides (tileCounts g.domain es).reverse))

/-- `ArrayMetadata::tile_num`: number of tiles in the array domain (dense
only; `none` on a sparse array). -/
def tile_num (g : Geom) : Option Int :=
  match g.tile_extents with
  | none => none
  | some es => some (tileCounts g.domain es).prod

/-- The dense 2-d schema of the spec's concrete scenario 1: domain
[0,3]x[0,3], tile extents [2,2], row-major cell and tile order. -/
def g2dRow : Geom :=
  ⟨[(0, 3), (0, 3)], some [2, 2], Layout.row_major, Layout.row_major⟩

/-- Scenario 2: the same schema with column-major cell order. -/
def g2dCol : Geom :=
  ⟨[(0, 3), (0, 3)], some [2, 2], Layout.col_major, Layout.row_major⟩

/-- C2: on the dense 2-d array with domain [0,3]x[0,3] and tile extents
[2,2]: with row-major cell and tile order `tile_num() = 4`,
`get_cell_pos((0,0)) = 0`, `get_cell_pos((1,1)) = 3`,
`get_cell_pos((0,1)) = 1` and `tile_id((2,0)) = 2`; with col-major cell
order on the same schema `get_cell_pos((1,0)) = 1` and
`get_cell_pos((0,1)) = 2`. -/
theorem c2_dense_2d_scenario :
    tile_num g2dRow = some 4 ∧
    get_cell_pos g2dRow [0, 0] = some 0 ∧
    get_cell_pos g2dRow [1, 1] = some 3 ∧
    get_cell_pos g2dRow [0, 1] = some 1 ∧
    tile_id g2dRow [2, 0] = some 2 ∧
    get_cell_pos g2dCol [1, 0] = some 1 ∧
    get_cell_pos g2dCol [0, 1] = some 2 := by
  decide

/- ********************************************************************* -/
/- C4: expand_domain                                                      -/
/- ********************************************************************* -/

/-- Core of `ArrayMetadata::expand_domain` on a regular tile grid: each
bound of the input subarray is rounded outward to the enclosing tile
boundary, dimension by dimension.  Modelled from the spec, section 4.3:
"round `d` outward to tile-extent boundaries" (on in-domain subarrays the
Euclidean division used here agrees with the C++ integer division). -/
def expandAux : List (Int × Int) → List Int → List (Int × Int) →
    List (Int × Int)
  | (l, _) :: ds, e :: es, (sl, sh) :: ss =>
    (l + (sl - l) / e * e, l + (sh - l) / e * e + e - 1) :: expandAux ds es ss
  | _, _, _ => []

/-- `ArrayMetadata::expand_domain`: maps the input onto the regular tile
grid; if the array has no regular tile grid, the function does not do
anything.  Modelled from the spec and the header documentation. -/
def expand_domain (g : Geom) (s : List (Int × Int)) : List (Int × Int) :=
  match g.tile_extents with
  | none => s
  | some es => expandAux g.domain es s

/-- Rectangle containment: `containsB a b` holds when `a ⊇ b` dimension by
dimension (false on dimension mismatch). -/
def containsB : List (Int × Int) → List (Int × Int) → Bool
  | [], [] => true
  | (al, ah) :: aa, (bl, bh) :: bb =>
    decide (al ≤ bl) && decide (bh ≤ ah) && containsB aa bb
  | _, _ => false

/-- Tile alignment of a subarray against the array grid: in each dimension
both bounds lie on tile-extent boundaries. -/
def tileAlignedB : List (Int × Int) → List Int → List (Int × Int) → Bool
  | [], [], [] => true
  | (l, _) :: ds, e :: es, (sl, sh) :: ss =>
    decide ((sl - l) % e = 0) && decide ((sh - l + 1) % e = 0) &&
      tileAlignedB ds es ss
  | _, _, _ => false

theorem expandAux_contains_aligned :
    ∀ (ds : List (Int × Int)) (es : List Int) (ss : List (Int × Int)),
    es.length = ds.length → ss.length = ds.length → (∀ e ∈ es, 0 < e) →
    containsB (expandAux ds es ss) ss = true ∧
    tileAlignedB ds es (expandAux ds es ss) = true := by
  intro ds
  induction ds with
  | nil =>
    intro es ss h1 h2 _
    rw [List.length_nil, List.length_eq_zero] at h1 h2
    subst h1; subst h2
    simp [expandAux, containsB, tileAlignedB]
  | cons d ds ih =>
    intro es ss h1 h2 hpos
    obtain ⟨l, h⟩ := d
    cases es with
    | nil => simp at h1
    | cons e es =>
      cases ss with
      | nil => simp at h2
      | cons p ss =>
        obtain ⟨sl, sh⟩ := p
        simp only [List.length_cons, Nat.add_right_cancel_iff] at h1 h2
        have he : 0 < e := hpos e (by simp)
        have hrest : ∀ x ∈ es, 0 < x := fun x hx => hpos x (by simp [hx])
        obtain ⟨ihc, iha⟩ := ih es ss h1 h2 hrest
        have hlo : l + (sl - l) / e * e ≤ sl := by
          have := Int.ediv_mul_le (sl - l) (ne_of_gt he)
          omega
        have hhi : sh ≤ l + (sh - l) / e * e + e - 1 := by
          have h1 := Int.emod_add_ediv' (sh - l) e
          have h2 := Int.emod_lt_of_pos (sh - l) he
          omega
        have halo : (l + (sl - l) / e * e - l) % e = 0 := by
          have hx : l + (sl - l) / e * e - l = (sl - l) / e * e := by ring
          rw [hx]
          exact Int.mul_emod_left _ _
        have hahi : (l + (sh - l) / e * e + e - 1 - l + 1) % e = 0 := by
          have hx : l + (sh - l) / e * e + e - 1 - l + 1 =
              ((sh - l) / e + 1) * e := by ring
          rw [hx]
          exact Int.mul_emod_left _ _
        simp [expandAux, containsB, tileAlignedB, hlo, hhi, halo, hahi,
          ihc, iha]

/-- C4: for every subarray `s` inside the domain of an array with a regular
tile grid, `expand_domain s` is tile-aligned and contains `s`; for an array
with no regular tile grid, `expand_domain` leaves its input unchanged. -/
theorem c4_expand_domain_aligned_contains (g : Geom) (s : List (Int × Int)) :
    (g.tile_extents = none → expand_domain g s = s) ∧
    (∀ es, g.tile_extents = some es →
      es.length = g.domain.length → s.length = g.domain.length →
      (∀ e ∈ es, 0 < e) → containsB g.domain s = true →
      containsB (expand_domain g s) s = true ∧
      tileAlignedB g.domain es (expand_domain g s) = true) := by
  constructor
  · intro hnone
    simp [expand_domain, hnone]
  · intro es hes h1 h2 hpos _hin
    simp only [expand_domain, hes]
    exact expandAux_contains_aligned g.domain es s h1 h2 hpos

theorem c4_expand_domain_aligned_contains_witness :
    (g2dRow.tile_extents = some [2, 2] ∧
      ([2, 2] : List Int).length = g2dRow.domain.length ∧
      ([(1, 2), (0, 1)] : List (Int × Int)).length = g2dRow.domain.length ∧
      (∀ e ∈ ([2, 2] : List Int), 0 < e) ∧
      containsB g2dRow.domain [(1, 2), (0, 1)] = true) ∧
    (containsB (expand_domain g2dRow [(1, 2), (0, 1)]) [(1, 2), (0, 1)] =
        true ∧
      tileAlignedB g2dRow.domain [2, 2]
        (expand_domain g2dRow [(1, 2), (0, 1)]) = true) :=
  ⟨⟨rfl, by decide, by decide, by decide, by decide⟩,
    (c4_expand_domain_aligned_contains g2dRow [(1, 2), (0, 1)]).2 [2, 2]
      rfl (by decide) (by decide) (by decide) (by decide)⟩

/- ********************************************************************* -/
/- C5: subarray_overlap                                                   -/
/- ********************************************************************* -/

/-- Per-dimension intersection of two subarrays:
`(max of lows, min of highs)`. -/
def overlapRegion : List (Int × Int) → List (Int × Int) → List (Int × Int)
  | (al, ah) :: aa, (bl, bh) :: bb =>
    (max al bl, min ah bh) :: overlapRegion aa bb
  | _, _ => []

/-- True when some dimension of a rectangle is empty (`hi < lo`). -/
def hasEmptyDim : List (Int × Int) → Bool
  | [] => false
  | (l, h) :: rest => decide (h < l) || hasEmptyDim rest

/-- Contiguity of a partial overlap along the tile order.  Modelled from
the spec, section 4.3: result 3 is "partial contiguous along the tile
order"; the region is contiguous in the tile-order linearization when every
dimension except the fastest-varying one under that order is a singleton. -/
def contigB (g : Geom) (o : List (Int × Int)) : Bool :=
  match g.tile_order with
  | Layout.row_major => o.dropLast.all fun p => decide (p.1 = p.2)
  | Layout.col_major => o.tail.all fun p => decide (p.1 = p.2)

/-- `ArrayMetadata::subarray_overlap`: computes the intersection of the two
subarrays and a code in {0 no overlap, 1 `a` fully covers `b`, 2 partial
non-contiguous, 3 partial contiguous along the tile order}.  Modelled from
the spec, section 4.3, and the header documentation of the return values. -/
def subarray_overlap (g : Geom) (a b : List (Int × Int)) :
    Nat × List (Int × Int) :=
  let o := overlapRegion a b
  (if hasEmptyDim o then 0
   else if o = b then 1
   else if contigB g o then 3 else 2, o)

theorem overlapRegion_comm (a b : List (Int × Int)) :
    overlapRegion a b = overlapRegion b a := by
  induction a generalizing b with
  | nil =>
    cases b with
    | nil => rfl
    | cons q bb => obtain ⟨bl, bh⟩ := q; rfl
  | cons p aa ih =>
    obtain ⟨al, ah⟩ := p
    cases b with
    | nil => rfl
    | cons q bb =>
      obtain ⟨bl, bh⟩ := q
      simp [overlapRegion, ih bb, max_comm, min_comm]

theorem overlapRegion_eq_iff_contains (a b : List (Int × Int))
    (hlen : a.length = b.length) :
    (overlapRegion a b = b ↔ containsB a b = true) := by
  induction a generalizing b with
  | nil =>
    rw [List.length_nil] at hlen
    have hb : b = [] := by
      cases b
      · rfl
      · simp at hlen
    subst hb
    simp [overlapRegion, containsB]
  | cons p aa ih =>
    obtain ⟨al, ah⟩ := p
    cases b with
    | nil => simp at hlen
    | cons q bb =>
      obtain ⟨bl, bh⟩ := q
      simp only [List.length_cons, Nat.add_right_cancel_iff] at hlen
      simp only [overlapRegion, containsB, List.cons.injEq, Prod.mk.injEq,
        Bool.and_eq_true, decide_eq_true_eq, ih bb hlen,
        max_eq_right_iff, min_eq_right_iff]

/-- C5: `subarray_overlap(a, b, out)` computes the same overlap region as
`subarray_overlap(b, a, out)` (the intersection is symmetric), and its
return code is 1 exactly when `a` fully contains `b` (for subarrays of the
same dimensionality with `b` non-degenerate). -/
theorem c5_subarray_overlap_symm_contains (g : Geom)
    (a b : List (Int × Int)) (hlen : a.length = b.length)
    (hb : hasEmptyDim b = false) :
    (subarray_overlap g a b).2 = (subarray_overlap g b a).2 ∧
    ((subarray_overlap g a b).1 = 1 ↔ containsB a b = true) := by
  constructor
  · simp [subarray_overlap, overlapRegion_comm a b]
  · simp only [subarray_overlap]
    by_cases hoe : hasEmptyDim (overlapRegion a b) = true
    · simp only [hoe, if_true]
      constructor
      · intro h
        exact absurd h (by norm_num)
      · intro hcon
        rw [← overlapRegion_eq_iff_contains a b hlen] at hcon
        rw [hcon] at hoe
        rw [hoe] at hb
        exact absurd hb (by norm_num)
    · rw [Bool.not_eq_true] at hoe
      simp only [hoe, Bool.false_eq_true, if_false]
      by_cases heq : overlapRegion a b = b
      · simp only [heq, if_true]
        rw [← overlapRegion_eq_iff_contains a b hlen]
        simp [heq]
      · simp only [heq, if_false]
        rw [← overlapRegion_eq_iff_contains a b hlen]
        by_cases hcb : contigB g (overlapRegion a b) <;> simp [hcb, heq]

theorem c5_subarray_overlap_symm_contains_witness :
    (([(0, 3), (0, 3)] : List (Int × Int)).length =
        ([(1, 2), (2, 2)] : List (Int × Int)).length ∧
      hasEmptyDim [(1, 2), (2, 2)] = false) ∧
    ((subarray_overlap g2dRow [(0, 3), (0, 3)] [(1, 2), (2, 2)]).2 =
        (subarray_overlap g2dRow [(1, 2), (2, 2)] [(0, 3), (0, 3)]).2 ∧
      ((subarray_overlap g2dRow [(0, 3), (0, 3)] [(1, 2), (2, 2)]).1 = 1 ↔
        containsB [(0, 3), (0, 3)] [(1, 2), (2, 2)] = true)) :=
  ⟨⟨by decide, by decide⟩,
    c5_subarray_overlap_symm_contains g2dRow [(0, 3), (0, 3)]
      [(1, 2), (2, 2)] (by decide) (by decide)⟩

/- ********************************************************************* -/
/- C6: tile_order_cmp                                                     -/
/- ********************************************************************* -/

/-- 3-way lexicographic comparison of integer lists, head dimension most
significant, returning -1/0/+1 (the early-exit loop of the comparators in
`array_metadata.h`). -/
def lexCmpInt : List Int → List Int → Int
  | x :: xs, y :: ys =>
    if x < y then -1 else if y < x then 1 else lexCmpInt xs ys
  | _, _ => 0

/-- `ArrayMetadata::tile_order_cmp`: compares the tile coordinates
`(c[d] - domain_lo[d]) / tile_extent[d]` of the two inputs lexicographically
under the array tile order (dimensions reversed for col-major); for an
array with irregular tiles it returns 0 always.  Modelled from the spec,
section 4.3. -/
def tile_order_cmp (g : Geom) (a b : List Int) : Int :=
  match g.tile_extents with
  | none => 0
  | some es =>
    match g.tile_order with
    | Layout.row_major =>
      lexCmpInt (tileCoords g.domain es a) (tileCoords g.domain es b)
    | Layout.col_major =>
      lexCmpInt (tileCoords g.domain es a).reverse
        (tileCoords g.domain es b).reverse

theorem lexCmpInt_spec (xs : List Int) :
    ∀ ys : List Int, xs.length = ys.length →
    (lexCmpInt xs ys = -1 ↔ List.Lex (· < ·) xs ys) ∧
    (lexCmpInt xs ys = 1 ↔ List.Lex (· < ·) ys xs) ∧
    (lexCmpInt xs ys = 0 ↔ xs = ys) := by
  induction xs with
  | nil =>
    intro ys hlen
    have hy : ys = [] := by
      cases ys
      · rfl
      · simp at hlen
    subst hy
    refine ⟨?_, ?_, ?_⟩ <;> simp [lexCmpInt]
  | cons x xs ih =>
    intro ys hlen
    cases ys with
    | nil => simp at hlen
    | cons y ys =>
      simp only [List.length_cons, Nat.add_right_cancel_iff] at hlen
      obtain ⟨ih1, ih2, ih3⟩ := ih ys hlen
      by_cases hxy : x < y
      · have hyx : ¬y < x := lt_asymm hxy
        refine ⟨?_, ?_, ?_⟩
        · simp only [lexCmpInt, if_pos hxy]
          exact ⟨fun _ => List.Lex.rel hxy, fun _ => trivial⟩
        · simp only [lexCmpInt, if_pos hxy]
          constructor
          · intro h
            exact absurd h (by norm_num)
          · intro h
            cases h with
            | cons h => exact absurd hxy (lt_irrefl x)
            | rel h => exact absurd h hyx
        · simp only [lexCmpInt, if_pos hxy]
          constructor
          · intro h
            exact absurd h (by norm_num)
          · intro h
            injection h with h1 _
            subst h1
            exact absurd hxy (lt_irrefl x)
      · by_cases hyx : y < x
        · refine ⟨?_, ?_, ?_⟩
          · simp only [lexCmpInt, if_neg hxy, if_pos hyx]
            constructor
            · intro h
              exact absurd h (by norm_num)
            · intro h
              cases h with
              | cons h => exact absurd hyx (lt_irrefl x)
              | rel h => exact absurd h hxy
          · simp only [lexCmpInt, if_neg hxy, if_pos hyx]
            exact ⟨fun _ => List.Lex.rel hyx, fun _ => trivial⟩
          · simp only [lexCmpInt, if_neg hxy, if_pos hyx]
            constructor
            · intro h
              exact absurd h (by norm_num)
            · intro h
              injection h with h1 _
              subst h1
              exact absurd hyx (lt_irrefl x)
        · have heq : x = y := le_antisymm (not_lt.mp hyx) (not_lt.mp hxy)
          subst heq
          refine ⟨?_, ?_, ?_⟩
          · simp only [lexCmpInt, if_neg hxy, if_neg hyx]
            rw [ih1, List.Lex.cons_iff]
          · simp only [lexCmpInt, if_neg hxy, if_neg hyx]
            rw [ih2, List.Lex.cons_iff]
          · simp only [lexCmpInt, if_neg hxy, if_neg hyx]
            rw [ih3]
            simp

theorem tileCoords_length (ds : List (Int × Int)) :
    ∀ (es : List Int) (cs : List Int), es.length = ds.length →
    cs.length = ds.length → (tileCoords ds es cs).length = ds.length := by
  induction ds with
  | nil =>
    intro es cs h1 h2
    simp [tileCoords]
  | cons d ds ih =>
    intro es cs h1 h2
    obtain ⟨l, h⟩ := d
    cases es with
    | nil => simp at h1
    | cons e es =>
      cases cs with
      | nil => simp at h2
      | cons c cs =>
        simp only [List.length_cons, Nat.add_right_cancel_iff] at h1 h2
        simp [tileCoords, ih es cs h1 h2]

/-- C6: for an array with irregular tiles (sparse, no extents)
`tile_order_cmp` returns 0 on all inputs; for a regular tile grid it
compares the tile coordinates `(c[d] - domain_lo[d]) / tile_extent[d]`
lexicographically under the array's tile order, returning -1, 0 or +1
according to the strict lexicographic order on those tile coordinates. -/
theorem c6_tile_order_cmp (g : Geom) (a b : List Int) :
    (g.tile_extents = none → tile_order_cmp g a b = 0) ∧
    (∀ es, g.tile_extents = some es →
      es.length = g.domain.length → a.length = g.domain.length →
      b.length = g.domain.length →
      ∀ ta tb,
        ta = (match g.tile_order with
          | Layout.row_major => tileCoords g.domain es a
          | Layout.col_major => (tileCoords g.domain es a).reverse) →
        tb = (match g.tile_order with
          | Layout.row_major => tileCoords g.domain es b
          | Layout.col_major => (tileCoords g.domain es b).reverse) →
        (tile_order_cmp g a b = -1 ↔ List.Lex (· < ·) ta tb) ∧
        (tile_order_cmp g a b = 1 ↔ List.Lex (· < ·) tb ta) ∧
        (tile_order_cmp g a b = 0 ↔ ta = tb)) := by
  constructor
  · intro hnone
    simp [tile_order_cmp, hnone]
  · intro es hes hles hla hlb ta tb hta htb
    have hlta : (tileCoords g.domain es a).length = g.domain.length :=
      tileCoords_length g.domain es a hles hla
    have hltb : (tileCoords g.domain es b).length = g.domain.length :=
      tileCoords_length g.domain es b hles hlb
    cases hord : g.tile_order with
    | row_major =>
      rw [hord] at hta htb
      simp only at hta htb
      subst hta; subst htb
      simp only [tile_order_cmp, hes, hord]
      exact lexCmpInt_spec _ _ (by rw [hlta, hltb])
    | col_major =>
      rw [hord] at hta htb
      simp only at hta htb
      subst hta; subst htb
      simp only [tile_order_cmp, hes, hord]
      exact lexCmpInt_spec _ _ (by simp [hlta, hltb])

theorem c6_tile_order_cmp_witness :
    (g2dRow.tile_extents = some [2, 2] ∧
      ([2, 2] : List Int).length = g2dRow.domain.length ∧
      ([0, 3] : List Int).length = g2dRow.domain.length ∧
      ([2, 0] : List Int).length = g2dRow.domain.length) ∧
    ((tile_order_cmp g2dRow [0, 3] [2, 0] = -1 ↔
        List.Lex (· < ·) (tileCoords g2dRow.domain [2, 2] [0, 3])
          (tileCoords g2dRow.domain [2, 2] [2, 0])) ∧
      (tile_order_cmp g2dRow [0, 3] [2, 0] = 1 ↔
        List.Lex (· < ·) (tileCoords g2dRow.domain [2, 2] [2, 0])
          (tileCoords g2dRow.domain [2, 2] [0, 3])) ∧
      (tile_order_cmp g2dRow [0, 3] [2, 0] = 0 ↔
        tileCoords g2dRow.domain [2, 2] [0, 3] =
          tileCoords g2dRow.domain [2, 2] [2, 0])) :=
  ⟨⟨rfl, by decide, by decide, by decide⟩,
    (c6_tile_order_cmp g2dRow [0, 3] [2, 0]).2 [2, 2] rfl (by decide)
      (by decide) (by decide) _ _ rfl rfl⟩

/- ********************************************************************* -/
/- C8: tile-slab containment predicates                                   -/
/- ********************************************************************* -/

/-- Whether the interval `[lo, hi]` lies within a single tile of a
dimension with domain low `l` and tile extent `e`: both ends have the same
tile index. -/
def spansOneTileB (l e lo hi : Int) : Bool :=
  decide ((lo - l) / e = (hi - l) / e)

/-- `ArrayMetadata::is_contained_in_tile_slab_row`: true iff the range's
first dimension spans at most one tile, i.e. the range fits in a single row
of tiles.  Modelled from the spec, sections 4.3 and 9 (open question a). -/
def is_contained_in_tile_slab_row (g : Geom) (r : List (Int × Int)) : Bool :=
  match g.tile_extents, g.domain, r with
  | some (e :: _), (l, _) :: _, (rl, rh) :: _ => spansOneTileB l e rl rh
  | _, _, _ => false

/-- `ArrayMetadata::is_contained_in_tile_slab_col`: true iff the range's
last dimension spans at most one tile, i.e. the range fits in a single
column of tiles.  Modelled from the spec, sections 4.3 and 9 (open
question a). -/
def is_contained_in_tile_slab_col (g : Geom) (r : List (Int × Int)) : Bool :=
  match g.tile_extents with
  | none => false
  | some es =>
    match es.getLast?, g.domain.getLast?, r.getLast? with
    | some e, some (l, _), some (rl, rh) => spansOneTileB l e rl rh
    | _, _, _ => false

theorem spansOneTileB_iff (l e lo hi : Int) (he : 0 < e) (hlh : lo ≤ hi) :
    (spansOneTileB l e lo hi = true ↔
      ∀ x, lo ≤ x → x ≤ hi → (x - l) / e = (lo - l) / e) := by
  simp only [spansOneTileB, decide_eq_true_eq]
  constructor
  · intro h x h1 h2
    have ha : (lo - l) / e ≤ (x - l) / e := Int.ediv_le_ediv he (by omega)
    have hb : (x - l) / e ≤ (hi - l) / e := Int.ediv_le_ediv he (by omega)
    omega
  · intro h
    exact (h hi hlh le_rfl).symm

/-- C8: `is_contained_in_tile_slab_row(range)` holds exactly when every
cell of the range has the same tile index in the first dimension (the range
spans at most one tile there), `is_contained_in_tile_slab_col(range)`
likewise for the last dimension, and the two predicates disagree on a
concrete range of the scenario-1 schema. -/
theorem c8_tile_slab_predicates (g : Geom) (es : List Int)
    (r : List (Int × Int)) (hes : g.tile_extents = some es) :
    (∀ e etl dlo dhi dtl rlo rhi rtl,
      es = e :: etl → g.domain = (dlo, dhi) :: dtl →
      r = (rlo, rhi) :: rtl → 0 < e → rlo ≤ rhi →
      (is_contained_in_tile_slab_row g r = true ↔
        ∀ x, rlo ≤ x → x ≤ rhi → (x - dlo) / e = (rlo - dlo) / e)) ∧
    (∀ e dlo dhi rlo rhi,
      es.getLast? = some e → g.domain.getLast? = some (dlo, dhi) →
      r.getLast? = some (rlo, rhi) → 0 < e → rlo ≤ rhi →
      (is_contained_in_tile_slab_col g r = true ↔
        ∀ x, rlo ≤ x → x ≤ rhi → (x - dlo) / e = (rlo - dlo) / e)) ∧
    (is_contained_in_tile_slab_row g2dRow [(0, 0), (0, 3)] = true ∧
      is_contained_in_tile_slab_col g2dRow [(0, 0), (0, 3)] = false) := by
  refine ⟨?_, ?_, by decide⟩
  · intro e etl dlo dhi dtl rlo rhi rtl h1 h2 h3 he hlh
    subst h1
    simp only [is_contained_in_tile_slab_row, hes, h2, h3]
    exact spansOneTileB_iff dlo e rlo rhi he hlh
  · intro e dlo dhi rlo rhi h1 h2 h3 he hlh
    simp only [is_contained_in_tile_slab_col, hes, h1, h2, h3]
    exact spansOneTileB_iff dlo e rlo rhi he hlh

theorem c8_tile_slab_predicates_witness :
    (g2dRow.tile_extents = some [2, 2]) ∧
    ((∀ e etl dlo dhi dtl rlo rhi rtl,
      ([2, 2] : List Int) = e :: etl → g2dRow.domain = (dlo, dhi) :: dtl →
      ([(0, 0), (0, 3)] : List (Int × Int)) = (rlo, rhi) :: rtl →
      0 < e → rlo ≤ rhi →
      (is_contained_in_tile_slab_row g2dRow [(0, 0), (0, 3)] = true ↔
        ∀ x, rlo ≤ x → x ≤ rhi → (x - dlo) / e = (rlo - dlo) / e)) ∧
    (∀ e dlo dhi rlo rhi,
      ([2, 2] : List Int).getLast? = some e →
      g2dRow.domain.getLast? = some (dlo, dhi) →
      ([(0, 0), (0, 3)] : List (Int × Int)).getLast? = some (rlo, rhi) →
      0 < e → rlo ≤ rhi →
      (is_contained_in_tile_slab_col g2dRow [(0, 0), (0, 3)] = true ↔
        ∀ x, rlo ≤ x → x ≤ rhi → (x - dlo) / e = (rlo - dlo) / e)) ∧
    (is_contained_in_tile_slab_row g2dRow [(0, 0), (0, 3)] = true ∧
      is_contained_in_tile_slab_col g2dRow [(0, 0), (0, 3)] = false)) :=
  ⟨rfl, c8_tile_slab_predicates g2dRow [2, 2] [(0, 0), (0, 3)] rfl⟩

/- ********************************************************************* -/
/- C9: array_lock / array_unlock protocol                                 -/
/- ********************************************************************* -/

/-- State of the `LockedArray` entry for one array URI: the number of
active shared holders and the number of exclusive holders.  Modelled from
the spec, section 4.5: the header documents the `locked_arrays_` map while
the `array_lock`/`array_unlock` bodies are not among the sources. -/
structure LockState where
  shared : Nat
  excl : Nat
deriving DecidableEq

/-- One atomic transition of the section 4.5 protocol; each step occurs
under the process-wide `locked_array_mtx_`, so an interleaving of
`array_lock`/`array_unlock` calls on one URI is a sequence of these steps.
A lock call only completes once its wait condition holds: shared requires
no exclusive holder; exclusive requires no holder at all. -/
inductive LockStep : LockState → LockState → Prop where
  | lock_shared (s : LockState) : s.excl = 0 →
      LockStep s ⟨s.shared + 1, s.excl⟩
  | lock_exclusive (s : LockState) : s.shared = 0 → s.excl = 0 →
      LockStep s ⟨s.shared, s.excl + 1⟩
  | unlock_shared (s : LockState) : 0 < s.shared →
      LockStep s ⟨s.shared - 1, s.excl⟩
  | unlock_exclusive (s : LockState) : 0 < s.excl →
      LockStep s ⟨s.shared, s.excl - 1⟩

/-- The states reachable from the unlocked state by any interleaving of
lock and unlock calls on one array URI. -/
inductive LockReachable : LockState → Prop where
  | start : LockReachable ⟨0, 0⟩
  | step (s t : LockState) : LockReachable s → LockStep s t →
      LockReachable t

/-- C9: in every state reachable by any interleaving of `array_lock` and
`array_unlock` calls on one array URI, whenever an exclusive holder is
present it is the only holder: no shared holder and no second exclusive
holder exists. -/
theorem c9_exclusive_lock_mutual_exclusion (s : LockState)
    (h : LockReachable s) (he : 0 < s.excl) :
    s.shared = 0 ∧ s.excl = 1 := by
  induction h with
  | start => simp at he
  | step s t _ hstep ih =>
    cases hstep with
    | lock_shared hg =>
      have he2 : 0 < s.excl := he
      rw [hg] at he2
      exact absurd he2 (lt_irrefl 0)
    | lock_exclusive hs hg =>
      exact ⟨hs, show s.excl + 1 = 1 by omega⟩
    | unlock_shared hg =>
      have he2 : 0 < s.excl := he
      obtain ⟨h1, h2⟩ := ih he2
      exact ⟨show s.shared - 1 = 0 by omega, h2⟩
    | unlock_exclusive hg =>
      have he2 : 0 < s.excl - 1 := he
      obtain ⟨h1, h2⟩ := ih (by omega)
      exact absurd he2 (by omega)

theorem c9_exclusive_lock_mutual_exclusion_witness :
    LockReachable ⟨0, 1⟩ ∧ 0 < (1 : Nat) ∧
      ((0 : Nat) = 0 ∧ (1 : Nat) = 1) :=
  have hr : LockReachable ⟨0, 1⟩ :=
    LockReachable.step ⟨0, 0⟩ ⟨0, 1⟩ LockReachable.start
      (LockStep.lock_exclusive ⟨0, 0⟩ rfl rfl)
  ⟨hr, by decide, c9_exclusive_lock_mutual_exclusion ⟨0, 1⟩ hr (by decide)⟩

/- ********************************************************************* -/
/- C10: attribute accessor                                                -/
/- ********************************************************************* -/

/-- `ArrayMetadata::attribute(id)`: returns a pointer to the selected
attribute, NULL on error.  Modelled from the header documentation of
`array_metadata.h` ("Returns a constant pointer to the selected attribute
(NULL if error)"); `attribute_num_` is maintained as the length of
`attributes_`, and an id at or past it is the error case. -/
def attributeGet (m : ArrayMetadataS) (id : Nat) : Option Attr :=
  if m.attrs.length ≤ id then none else m.attrs.get? id

/-- C10: for every out-of-range id (`id ≥ attribute_num`) the attribute
accessor returns NULL rather than failing or returning an arbitrary
attribute, and for every `id < attribute_num` it returns the attribute
stored at that index. -/
theorem c10_attribute_accessor (m : ArrayMetadataS) (id : Nat) :
    (m.attrs.length ≤ id → attributeGet m id = none) ∧
    (∀ h : id < m.attrs.length,
      attributeGet m id = some (m.attrs.get ⟨id, h⟩)) := by
  constructor
  · intro h
    simp [attributeGet, h]
  · intro h
    rw [attributeGet, if_neg (by omega)]
    exact List.get?_eq_get h

theorem c10_attribute_accessor_witness :
    (metaW.attrs.length ≤ 5 → attributeGet metaW 5 = none) ∧
    (∀ h : 0 < metaW.attrs.length,
      attributeGet metaW 0 = some (metaW.attrs.get ⟨0, h⟩)) :=
  ⟨(c10_attribute_accessor metaW 5).1, (c10_attribute_accessor metaW 0).2⟩

/- ********************************************************************* -/
/- C7: fragment URI ordering                                              -/
/- ********************************************************************* -/

/-- Splits a character list at the first underscore. -/
def splitAtUnderscore : List Char → List Char × List Char
  | [] => ([], [])
  | c :: cs =>
    if c = '_' then ([], cs)
    else
      let p := splitAtUnderscore cs
      (c :: p.1, p.2)

/-- Decimal value of a digit string. -/
def digitsVal (cs : List Char) : Nat :=
  cs.foldl (fun n c => 10 * n + (c.toNat - 48)) 0

/-- The `(timestamp, pid)` pair embedded in a fragment URI of the form
`<timestamp>_<pid>` (section 3, fragment ordering). -/
def fragKey (s : String) : Nat × Nat :=
  let p := splitAtUnderscore s.toList
  (digitsVal p.1, digitsVal p.2)

/-- The canonical fragment order: ascending timestamp, ties broken by
ascending pid.  Modelled from the spec, section 3. -/
def fragLe (a b : String) : Prop :=
  (fragKey a).1 < (fragKey b).1 ∨
    ((fragKey a).1 = (fragKey b).1 ∧ (fragKey a).2 ≤ (fragKey b).2)

instance fragLe.decRel : DecidableRel fragLe := fun a b => by
  unfold fragLe
  infer_instance

instance fragLe.total : IsTotal String fragLe :=
  ⟨by intro a b; unfold fragLe; omega⟩

instance fragLe.trans : IsTrans String fragLe :=
  ⟨by intro a b c; unfold fragLe; omega⟩

/-- `StorageManager::sort_fragment_uris`: sorts the input fragment URIs in
ascending timestamp order, breaking ties using the process id.  Modelled
from the spec (section 3) and the header documentation in
`storage_manager.h`; the body is not among the provided sources. -/
def sort_fragment_uris (us : List String) : List String :=
  List.insertionSort fragLe us

/-- C7: `sort_fragment_uris` orders any list of fragment URIs of the form
`<timestamp>_<pid>` by ascending timestamp with ties broken by ascending
pid (the output is sorted under that order and is a permutation of the
input), and on the concrete fragments `10_100, 10_50, 11_100` the canonical
order is `10_50, 10_100, 11_100`. -/
theorem c7_sort_fragment_uris (us : List String) :
    (sort_fragment_uris us).Sorted fragLe ∧
    List.Perm (sort_fragment_uris us) us ∧
    sort_fragment_uris ["10_100", "10_50", "11_100"] =
      ["10_50", "10_100", "11_100"] := by
  refine ⟨List.sorted_insertionSort fragLe us,
    List.perm_insertionSort fragLe us, by decide⟩

/- ********************************************************************* -/
/- C3: get_cell_pos bound and cell-coordinate enumeration                 -/
/- ********************************************************************* -/

/-- Per-dimension lower corner of a domain. -/
def lows (ds : List (Int × Int)) : List Int := ds.map Prod.fst

/-- Per-dimension upper corner of a domain. -/
def highs (ds : List (Int × Int)) : List Int := ds.map Prod.snd

/-- Number of cells of a domain: the product of `(hi - lo + 1)` over all
dimensions. -/
def domSize (ds : List (Int × Int)) : Nat :=
  (ds.map fun p => (p.2 + 1 - p.1).toNat).prod

/-- Odometer increment of a coordinate tuple within a domain with the HEAD
dimension varying fastest (the column-major stepping): bump the head, and
on overflow reset it to its low and carry into the tail; `none` when the
whole domain is exhausted. -/
def incrColAux : List (Int × Int) → List Int → Option (List Int)
  | (l, h) :: ds, c :: cs =>
    if c < h then some ((c + 1) :: cs)
    else
      match incrColAux ds cs with
      | some cs2 => some (l :: cs2)
      | none => none
  | _, _ => none

/-- `ArrayMetadata::get_next_cell_coords`: retrieves the next coordinates
along the array cell order within the given domain, reporting exhaustion
(`coords_retrieved = false`, here `none`).  Row-major varies the LAST
dimension fastest, col-major the first.  Modelled from the spec,
section 4.3. -/
def get_next_cell_coords (ord : Layout) (ds : List (Int × Int))
    (c : List Int) : Option (List Int) :=
  match ord with
  | Layout.col_major => incrColAux ds c
  | Layout.row_major => Option.map List.reverse (incrColAux ds.reverse c.reverse)

/-- Trajectory of an option-valued step function: the start plus up to `n`
successful steps (stopping early at exhaustion). -/
def orbit (f : List Int → Option (List Int)) : List Int → Nat → List (List Int)
  | c, 0 => [c]
  | c, n + 1 =>
    c :: (match f c with
      | none => []
      | some c2 => orbit f c2 n)

/-- The integers of the inclusive interval `[l, h]`, in order. -/
def rangeInt (l h : Int) : List Int :=
  (List.range (h + 1 - l).toNat).map fun i : Nat => l + (i : Int)

theorem mem_rangeInt (l h v : Int) : v ∈ rangeInt l h ↔ l ≤ v ∧ v ≤ h := by
  simp only [rangeInt, List.mem_map, List.mem_range]
  constructor
  · rintro ⟨i, hi, rfl⟩
    omega
  · rintro ⟨h1, h2⟩
    exact ⟨(v - l).toNat, by omega, by omega⟩

theorem rangeInt_length (l h : Int) :
    (rangeInt l h).length = (h + 1 - l).toNat := by
  simp [rangeInt]

theorem rangeInt_ne_nil (l h : Int) (hlh : l ≤ h) : rangeInt l h ≠ [] := by
  intro hc
  have := rangeInt_length l h
  rw [hc] at this
  simp at this
  omega

theorem head_rangeInt (l h : Int) (hlh : l ≤ h) :
    (rangeInt l h).head? = some l := by
  have hn : (h + 1 - l).toNat = (h - l).toNat + 1 := by omega
  rw [rangeInt, hn, List.range_succ_eq_map]
  simp

theorem getLast_rangeInt (l h : Int) (hlh : l ≤ h) :
    (rangeInt l h).getLast? = some h := by
  have hn : (h + 1 - l).toNat = (h - l).toNat + 1 := by omega
  rw [rangeInt, hn, List.range_succ, List.map_append]
  simp only [List.map_cons, List.map_nil, List.getLast?_concat]
  congr 1
  omega

theorem nodup_rangeInt (l h : Int) : (rangeInt l h).Nodup := by
  refine List.Nodup.map ?_ (List.nodup_range _)
  intro a b hab
  have hab2 : l + (a : Int) = l + (b : Int) := hab
  omega

theorem rangeInt_cons (l h : Int) (hlh : l ≤ h) :
    rangeInt l h = l :: rangeInt (l + 1) h := by
  have hn : (h + 1 - l).toNat = (h + 1 - (l + 1)).toNat + 1 := by omega
  rw [rangeInt, hn, List.range_succ_eq_map]
  simp only [List.map_cons, List.map_map, Int.ofNat_zero, add_zero,
    Nat.cast_zero]
  congr 1
  rw [rangeInt]
  apply List.map_congr_left
  intro i _
  simp only [Function.comp_apply]
  omega

theorem chain'_rangeInt (R : Int → Int → Prop) :
    ∀ (n : Nat) (l h : Int), (h + 1 - l).toNat = n →
    (∀ v, l ≤ v → v < h → R v (v + 1)) →
    List.Chain' R (rangeInt l h) := by
  intro n
  induction n with
  | zero =>
    intro l h hn _
    have hnil : rangeInt l h = [] := by
      have := rangeInt_length l h
      rw [hn] at this
      exact List.length_eq_zero.mp this
    rw [hnil]
    exact List.chain'_nil
  | succ m ihm =>
    intro l h hn hR
    have hlh : l ≤ h := by omega
    rw [rangeInt_cons l h hlh]
    rw [List.chain'_cons']
    constructor
    · intro y hy
      by_cases hl2 : l + 1 ≤ h
      · rw [head_rangeInt (l + 1) h hl2] at hy
        simp only [Option.mem_def, Option.some_inj] at hy
        subst hy
        exact hR l le_rfl (by omega)
      · have : rangeInt (l + 1) h = [] := by
          have h0 : (h + 1 - (l + 1)).toNat = 0 := by omega
          have := rangeInt_length (l + 1) h
          rw [h0] at this
          exact List.length_eq_zero.mp this
        rw [this] at hy
        simp at hy
    · exact ihm (l + 1) h (by omega) fun v hv1 hv2 => hR v (by omega) hv2

/-- All cells of a domain, enumerated with the head dimension varying
fastest (the order that `incrColAux` steps through). -/
def cellsCol : List (Int × Int) → List (List Int)
  | [] => [[]]
  | (l, h) :: ds =>
    ((cellsCol ds).map fun t => (rangeInt l h).map fun v => v :: t).flatten

theorem mem_cellsCol (ds : List (Int × Int)) :
    ∀ c, c ∈ cellsCol ds ↔ inDomainB ds c = true := by
  induction ds with
  | nil =>
    intro c
    constructor
    · intro hc
      simp only [cellsCol, List.mem_singleton] at hc
      subst hc
      rfl
    · intro hc
      cases c with
      | nil => simp [cellsCol]
      | cons v cs => simp [inDomainB] at hc
  | cons d ds ih =>
    obtain ⟨l, h⟩ := d
    intro c
    simp only [cellsCol, List.mem_flatten, List.mem_map]
    constructor
    · rintro ⟨blk, ⟨t, ht, rfl⟩, hc⟩
      simp only [List.mem_map] at hc
      obtain ⟨v, hv, rfl⟩ := hc
      rw [mem_rangeInt] at hv
      simp only [inDomainB, Bool.and_eq_true, decide_eq_true_eq]
      exact ⟨⟨hv.1, hv.2⟩, (ih t).mp ht⟩
    · intro hc
      cases c with
      | nil => simp [inDomainB] at hc
      | cons v cs =>
        simp only [inDomainB, Bool.and_eq_true, decide_eq_true_eq] at hc
        obtain ⟨⟨h1, h2⟩, h3⟩ := hc
        refine ⟨(rangeInt l h).map fun w => w :: cs,
          ⟨cs, (ih cs).mpr h3, rfl⟩, ?_⟩
        simp only [List.mem_map]
        exact ⟨v, (mem_rangeInt l h v).mpr ⟨h1, h2⟩, rfl⟩

theorem sum_map_constant {α : Type} (L : List α) (k : Nat) :
    (L.map fun _ => k).sum = k * L.length := by
  induction L with
  | nil => simp
  | cons x L ih =>
    simp only [List.map_cons, List.sum_cons, ih, List.length_cons]
    ring

theorem cellsCol_length (ds : List (Int × Int)) :
    (cellsCol ds).length = domSize ds := by
  induction ds with
  | nil => simp [cellsCol, domSize]
  | cons d ds ih =>
    obtain ⟨l, h⟩ := d
    simp only [cellsCol, List.length_flatten, List.map_map]
    have hmap : (List.map (List.length ∘ fun t =>
        (rangeInt l h).map fun v => v :: t) (cellsCol ds)) =
        (cellsCol ds).map fun _ => (h + 1 - l).toNat := by
      apply List.map_congr_left
      intro t _
      simp [rangeInt_length]
    rw [hmap, sum_map_constant, ih]
    simp only [domSize, List.map_cons, List.prod_cons]

theorem cellsCol_nodup (ds : List (Int × Int)) : (cellsCol ds).Nodup := by
  induction ds with
  | nil => simp [cellsCol]
  | cons d ds ih =>
    obtain ⟨l, h⟩ := d
    rw [cellsCol, List.nodup_flatten]
    constructor
    · rintro blk hblk
      simp only [List.mem_map] at hblk
      obtain ⟨t, _, rfl⟩ := hblk
      refine List.Nodup.map ?_ (nodup_rangeInt l h)
      intro a b hab
      injection hab
    · rw [List.pairwise_map]
      refine ih.imp ?_
      intro t1 t2 hne x hx1 hx2
      simp only [List.mem_map] at hx1 hx2
      obtain ⟨v, _, rfl⟩ := hx1
      obtain ⟨w, _, hw⟩ := hx2
      injection hw with hw1 hw2
      exact hne hw2.symm

theorem flatten_ne_nil_of_blocks (L : List (List (List Int))) (hL : L ≠ [])
    (hall : ∀ b ∈ L, b ≠ []) : L.flatten ≠ [] := by
  obtain ⟨b, L2, rfl⟩ := List.exists_cons_of_ne_nil hL
  rw [List.flatten_cons]
  have hb : b ≠ [] := hall b (by simp)
  intro hc
  rw [List.append_eq_nil] at hc
  exact hb hc.1

theorem getLast?_flatten_of_blocks (L : List (List (List Int)))
    (hall : ∀ b ∈ L, b ≠ []) :
    L.flatten.getLast? = L.getLast?.bind List.getLast? := by
  induction L with
  | nil => simp
  | cons b L ih =>
    by_cases hL : L = []
    · subst hL
      simp
    · have hfl : L.flatten ≠ [] :=
        flatten_ne_nil_of_blocks L hL fun x hx => hall x (by simp [hx])
      rw [List.flatten_cons, List.getLast?_append_of_ne_nil _ hfl,
        ih fun x hx => hall x (by simp [hx])]
      obtain ⟨c, L2, rfl⟩ := List.exists_cons_of_ne_nil hL
      rfl

theorem cellsCol_chain_spec (ds : List (Int × Int))
    (hwf : ∀ p ∈ ds, p.1 ≤ p.2) :
    (cellsCol ds).head? = some (lows ds) ∧
    (cellsCol ds).getLast? = some (highs ds) ∧
    List.Chain' (fun a b => incrColAux ds a = some b) (cellsCol ds) ∧
    incrColAux ds (highs ds) = none := by
  induction ds with
  | nil =>
    refine ⟨rfl, rfl, ?_, rfl⟩
    simp [cellsCol]
  | cons d ds ih =>
    obtain ⟨l, h⟩ := d
    have hl : l ≤ h := hwf (l, h) (by simp)
    have hwf2 : ∀ p ∈ ds, p.1 ≤ p.2 := fun p hp => hwf p (by simp [hp])
    obtain ⟨ihh, ihl, ihc, ihn⟩ := ih hwf2
    have hTne : cellsCol ds ≠ [] := by
      intro hc
      rw [hc] at ihh
      simp at ihh
    have hblk : ∀ b ∈ (cellsCol ds).map fun t =>
        (rangeInt l h).map fun v => v :: t, b ≠ [] := by
      rintro b hb
      simp only [List.mem_map] at hb
      obtain ⟨t, _, rfl⟩ := hb
      simp only [ne_eq, List.map_eq_nil_iff]
      exact rangeInt_ne_nil l h hl
    refine ⟨?_, ?_, ?_, ?_⟩
    · obtain ⟨t, T2, hT⟩ := List.exists_cons_of_ne_nil hTne
      have ht : t = lows ds := by
        rw [hT] at ihh
        simpa using ihh
      subst ht
      rw [cellsCol, hT, List.map_cons, List.flatten_cons,
        rangeInt_cons l h hl]
      simp [lows]
    · rw [cellsCol, getLast?_flatten_of_blocks _ hblk, List.getLast?_map,
        ihl]
      simp only [Option.map_some', Option.some_bind]
      rw [List.getLast?_map, getLast_rangeInt l h hl]
      simp [highs]
    · rw [cellsCol, List.chain'_flatten (fun hc => hblk [] hc rfl)]
      constructor
      · rintro blk hb
        simp only [List.mem_map] at hb
        obtain ⟨t, htmem, rfl⟩ := hb
        rw [List.chain'_map]
        refine chain'_rangeInt _ ((h + 1 - l).toNat) l h rfl ?_
        intro v hv1 hv2
        simp [incrColAux, hv2]
      · rw [List.chain'_map]
        refine ihc.imp ?_
        intro t1 t2 hstep x hx y hy
        rw [List.getLast?_map, getLast_rangeInt l h hl] at hx
        rw [List.head?_map, head_rangeInt l h hl] at hy
        simp only [Option.map_some', Option.mem_def, Option.some_inj] at hx hy
        subst hx
        subst hy
        simp [incrColAux, lt_irrefl, hstep]
    · simp only [highs, List.map_cons] at ihn ⊢
      simp only [incrColAux, if_neg (lt_irrefl h), ihn]

theorem orbit_eq_of_chain (f : List Int → Option (List Int)) :
    ∀ (L : List (List Int)) (a : List Int), L.head? = some a →
    List.Chain' (fun x y => f x = some y) L →
    orbit f a (L.length - 1) = L := by
  intro L
  induction L with
  | nil =>
    intro a ha _
    simp at ha
  | cons b L ih =>
    intro a ha hchain
    rw [List.head?_cons, Option.some_inj] at ha
    subst ha
    cases L with
    | nil => rfl
    | cons c L2 =>
      rw [List.chain'_cons] at hchain
      obtain ⟨hab, hch⟩ := hchain
      show orbit f b (L2.length + 1) = b :: c :: L2
      simp only [orbit, hab]
      have hrec := ih c rfl hch
      simp only [List.length_cons, Nat.succ_sub_one] at hrec
      rw [hrec]

theorem orbit_map_reverse (dr : List (Int × Int)) :
    ∀ (n : Nat) (c : List Int),
    orbit (fun x => Option.map List.reverse (incrColAux dr x.reverse)) c n =
      (orbit (incrColAux dr) c.reverse n).map List.reverse := by
  intro n
  induction n with
  | zero =>
    intro c
    simp [orbit]
  | succ m ih =>
    intro c
    cases hstep : incrColAux dr c.reverse with
    | none => simp [orbit, hstep]
    | some x =>
      simp only [orbit, hstep, Option.map_some', List.map_cons,
        List.reverse_reverse]
      rw [ih x.reverse]
      simp [List.reverse_reverse]

theorem lows_reverse (ds : List (Int × Int)) :
    lows ds.reverse = (lows ds).reverse := by
  simp [lows]

theorem highs_reverse (ds : List (Int × Int)) :
    highs ds.reverse = (highs ds).reverse := by
  simp [highs]

theorem domSize_reverse (ds : List (Int × Int)) :
    domSize ds.reverse = domSize ds := by
  simp only [domSize, List.map_reverse]
  exact List.prod_reverse _

theorem inDomainB_iff_forall2 (ds : List (Int × Int)) :
    ∀ cs, inDomainB ds cs = true ↔
      List.Forall₂ (fun p c => p.1 ≤ c ∧ c ≤ p.2) ds cs := by
  induction ds with
  | nil =>
    intro cs
    cases cs with
    | nil => simp [inDomainB]
    | cons c cs => simp [inDomainB, List.forall₂_nil_left_iff]
  | cons d ds ih =>
    obtain ⟨l, h⟩ := d
    intro cs
    cases cs with
    | nil => simp [inDomainB, List.forall₂_nil_right_iff]
    | cons c cs =>
      simp [inDomainB, List.forall₂_cons, ih cs, and_assoc]

theorem inDomainB_reverse (ds : List (Int × Int)) (cs : List Int) :
    inDomainB ds.reverse cs.reverse = inDomainB ds cs := by
  have h1 := inDomainB_iff_forall2 ds.reverse cs.reverse
  rw [List.forall₂_reverse_iff] at h1
  have h2 := inDomainB_iff_forall2 ds cs
  have hiff : inDomainB ds.reverse cs.reverse = true ↔
      inDomainB ds cs = true := h1.trans h2.symm
  cases hr : inDomainB ds.reverse cs.reverse with
  | false =>
    cases hb : inDomainB ds cs with
    | false => rfl
    | true =>
      exfalso
      have h3 := hiff.mpr hb
      rw [hr] at h3
      exact Bool.false_ne_true h3
  | true => exact (hiff.mp hr).symm

theorem inTileCoords_forall2 (ds : List (Int × Int)) :
    ∀ (es cs : List Int), es.length = ds.length →
    (∀ e ∈ es, 0 < e) → inDomainB ds cs = true →
    List.Forall₂ (fun e t => 0 ≤ t ∧ t < e) es (inTileCoords ds es cs) := by
  induction ds with
  | nil =>
    intro es cs h1 _ _
    have hes : es = [] := List.length_eq_zero.mp (by rw [h1]; rfl)
    subst hes
    simp [inTileCoords]
  | cons d ds ih =>
    intro es cs h1 hpos hdom
    obtain ⟨l, h⟩ := d
    cases es with
    | nil => simp at h1
    | cons e es =>
      cases cs with
      | nil => simp [inDomainB] at hdom
      | cons c cs =>
        simp only [List.length_cons, Nat.add_right_cancel_iff] at h1
        simp only [inDomainB, Bool.and_eq_true, decide_eq_true_eq] at hdom
        obtain ⟨⟨hc1, hc2⟩, hrest⟩ := hdom
        have he : 0 < e := hpos e (by simp)
        rw [inTileCoords]
        refine List.Forall₂.cons
          ⟨Int.emod_nonneg _ (ne_of_gt he), Int.emod_lt_of_pos _ he⟩ ?_
        exact ih es cs h1 (fun x hx => hpos x (by simp [hx])) hrest

theorem linCol_nonneg_lt (es ts : List Int)
    (h : List.Forall₂ (fun e t => 0 ≤ t ∧ t < e) es ts) :
    0 ≤ linCol es ts ∧ linCol es ts < es.prod := by
  induction h with
  | nil => simp [linCol]
  | @cons e t es2 ts2 hp hrest ih =>
    obtain ⟨h1, h2⟩ := hp
    obtain ⟨ih1, ih2⟩ := ih
    have he : (0 : Int) < e := lt_of_le_of_lt h1 h2
    simp only [linCol, List.prod_cons]
    constructor
    · have hmul : 0 ≤ e * linCol es2 ts2 := mul_nonneg (le_of_lt he) ih1
      linarith
    · have hle : linCol es2 ts2 ≤ es2.prod - 1 := by linarith
      have hstep : e * linCol es2 ts2 ≤ e * (es2.prod - 1) :=
        mul_le_mul_of_nonneg_left hle (le_of_lt he)
      have hring : e * (es2.prod - 1) = e * es2.prod - e := by ring
      linarith

/-- C3: for every dense array and every coordinate inside the array domain,
`get_cell_pos` returns a position that is nonnegative and strictly below
`cell_num_per_tile`; and iterating `get_next_cell_coords` from the domain's
lower corner exactly `∏(hi - lo + 1)` times exhausts the domain
(`coords_retrieved` becomes false on the final call) after visiting every
cell exactly once: the trajectory starting at the lower corner and taking
`∏(hi - lo + 1) - 1` successful steps has exactly `∏(hi - lo + 1)`
pairwise-distinct entries, its members are precisely the domain cells, and
one further step from its last entry reports exhaustion. -/
theorem c3_cell_pos_bound_and_enumeration (g : Geom) (es : List Int)
    (hes : g.tile_extents = some es) (hlen : es.length = g.domain.length)
    (hpos : ∀ e ∈ es, 0 < e) (hwf : ∀ p ∈ g.domain, p.1 ≤ p.2) :
    (∀ c, inDomainB g.domain c = true →
      ∃ p, get_cell_pos g c = some p ∧ 0 ≤ p ∧ p < cell_num_per_tile g) ∧
    (∀ L, L = orbit (get_next_cell_coords g.cell_order g.domain)
        (lows g.domain) (domSize g.domain - 1) →
      L.length = domSize g.domain ∧ L.Nodup ∧
      (∀ c, c ∈ L ↔ inDomainB g.domain c = true) ∧
      (∀ cLast, L.getLast? = some cLast →
        get_next_cell_coords g.cell_order g.domain cLast = none)) := by
  have hcnt : cell_num_per_tile g = es.prod := by
    simp [cell_num_per_tile, hes]
  constructor
  · intro c hc
    have hf2 := inTileCoords_forall2 g.domain es c hlen hpos hc
    simp only [get_cell_pos, hes, hc, if_true]
    rw [hcnt]
    cases hord : g.cell_order with
    | row_major =>
      have hrev := List.forall₂_reverse_iff.mpr hf2
      obtain ⟨hb1, hb2⟩ := linCol_nonneg_lt _ _ hrev
      rw [List.prod_reverse] at hb2
      exact ⟨_, rfl, hb1, hb2⟩
    | col_major =>
      obtain ⟨hb1, hb2⟩ := linCol_nonneg_lt _ _ hf2
      exact ⟨_, rfl, hb1, hb2⟩
  · cases hord : g.cell_order with
    | col_major =>
      have hf : get_next_cell_coords Layout.col_major g.domain =
          incrColAux g.domain := rfl
      rw [hf]
      intro L hL
      subst hL
      obtain ⟨hhead, hlast, hchain, hnone⟩ := cellsCol_chain_spec g.domain hwf
      have horb := orbit_eq_of_chain (incrColAux g.domain) (cellsCol g.domain)
        (lows g.domain) hhead hchain
      rw [cellsCol_length] at horb
      rw [horb]
      refine ⟨cellsCol_length _, cellsCol_nodup _, mem_cellsCol _, ?_⟩
      intro cLast hc
      rw [hlast, Option.some_inj] at hc
      subst hc
      exact hnone
    | row_major =>
      have hf : get_next_cell_coords Layout.row_major g.domain =
          fun x => Option.map List.reverse
            (incrColAux g.domain.reverse x.reverse) := rfl
      rw [hf]
      intro L hL
      subst hL
      have hwfr : ∀ p ∈ g.domain.reverse, p.1 ≤ p.2 := fun p hp =>
        hwf p (List.mem_reverse.mp hp)
      obtain ⟨hhead, hlast, hchain, hnone⟩ :=
        cellsCol_chain_spec g.domain.reverse hwfr
      have horb := orbit_eq_of_chain (incrColAux g.domain.reverse)
        (cellsCol g.domain.reverse) (lows g.domain.reverse) hhead hchain
      rw [cellsCol_length, domSize_reverse] at horb
      have htrans := orbit_map_reverse g.domain.reverse
        (domSize g.domain - 1) (lows g.domain)
      rw [← lows_reverse, horb] at htrans
      rw [htrans]
      refine ⟨?_, ?_, ?_, ?_⟩
      · rw [List.length_map, cellsCol_length, domSize_reverse]
      · exact (cellsCol_nodup _).map List.reverse_injective
      · intro c
        simp only [List.mem_map]
        constructor
        · rintro ⟨y, hy, rfl⟩
          rw [← inDomainB_reverse]
          rw [List.reverse_reverse]
          exact (mem_cellsCol _ y).mp hy
        · intro hc
          refine ⟨c.reverse, ?_, List.reverse_reverse c⟩
          rw [mem_cellsCol]
          rw [inDomainB_reverse]
          exact hc
      · intro cLast hc
        rw [List.getLast?_map, hlast, highs_reverse] at hc
        simp only [Option.map_some', Option.some_inj, List.reverse_reverse]
          at hc
        subst hc
        show Option.map List.reverse
          (incrColAux g.domain.reverse (highs g.domain).reverse) = none
        rw [← highs_reverse, hnone]
        rfl

theorem c3_cell_pos_bound_and_enumeration_witness :
    (g2dRow.tile_extents = some [2, 2] ∧
      ([2, 2] : List Int).length = g2dRow.domain.length ∧
      (∀ e ∈ ([2, 2] : List Int), 0 < e) ∧
      (∀ p ∈ g2dRow.domain, p.1 ≤ p.2)) ∧
    ((∀ c, inDomainB g2dRow.domain c = true →
      ∃ p, get_cell_pos g2dRow c = some p ∧ 0 ≤ p ∧
        p < cell_num_per_tile g2dRow) ∧
    (∀ L, L = orbit (get_next_cell_coords g2dRow.cell_order g2dRow.domain)
        (lows g2dRow.domain) (domSize g2dRow.domain - 1) →
      L.length = domSize g2dRow.domain ∧ L.Nodup ∧
      (∀ c, c ∈ L ↔ inDomainB g2dRow.domain c = true) ∧
      (∀ cLast, L.getLast? = some cLast →
        get_next_cell_coords g2dRow.cell_order g2dRow.domain cLast =
          none))) :=
  ⟨⟨rfl, by decide, by decide, by decide⟩,
    c3_cell_pos_bound_and_enumeration g2dRow [2, 2] rfl (by decide)
      (by decide) (by decide)⟩
